import Mathlib

/-
Verification of the ir-access prefix-fetcher core: shallow embedding of the
Go package fetch (api.go, asn_delegated.go, bgp fetch/compare helpers) and
proofs of the specified properties.

IP prefixes (Go netip.Prefix) are modelled by the structure Pfx below:
bitlen is Addr().BitLen() (32 for IPv4, 128 for IPv6), addr is the numeric
address value (big-endian byte interpretation), bits is the prefix length.
-/

/-- Model of Go netip.Prefix: address bit width, numeric address, prefix length. -/
structure Pfx where
  bitlen : Nat
  addr : Nat
  bits : Nat
deriving DecidableEq, Repr

/-- An IPv4 prefix (netip Addr.Is4) has a 32-bit address. -/
def Pfx.is4 (p : Pfx) : Bool := p.bitlen == 32

/-- Canonical (masked) well-formed IPv4 prefix: the data invariant of a CIDR
network block — address fits in 32 bits and all host bits are zero. -/
def Pfx.Wf4 (p : Pfx) : Prop :=
  p.bitlen = 32 → p.bits ≤ 32 ∧ p.addr < 2 ^ 32 ∧ p.addr % 2 ^ (32 - p.bits) = 0

instance (p : Pfx) : Decidable p.Wf4 := by unfold Pfx.Wf4; infer_instance

/-- Embeds prefixCompare from the fetch package: compare address bit length
(IPv4 before IPv6), then prefix length, then numeric address value.
Go cmp.Compare and netip.Addr.Compare (at equal bit length) are numeric
comparisons returning -1/0/1, modelled by Ordering. -/
def prefixCompare (a b : Pfx) : Ordering :=
  match compare a.bitlen b.bitlen with
  | .eq =>
    match compare a.bits b.bits with
    | .eq => compare a.addr b.addr
    | c => c
  | c => c

/-- The non-strict order induced by prefixCompare (used by slices.SortFunc). -/
def prefixLE (a b : Pfx) : Prop := prefixCompare a b ≠ Ordering.gt

instance : DecidableRel prefixLE := fun a b => by unfold prefixLE; infer_instance

/-- Embeds isValidPublicASN from asn_delegated.go, if-chain preserved. -/
def isValidPublicASN (asn : Int) : Bool :=
  if asn = 0 then false
  else if 64512 ≤ asn ∧ asn ≤ 65534 then false
  else if asn = 65535 then false
  else if 4200000000 ≤ asn ∧ asn ≤ 4294967294 then false
  else if asn = 4294967295 then false
  else if 1 ≤ asn ∧ asn ≤ 64511 then true
  else if 131072 ≤ asn ∧ asn ≤ 4199999999 then true
  else false

/- Helper lemmas about prefixCompare. -/

theorem prefixCompare_def (a b : Pfx) :
    prefixCompare a b =
      if a.bitlen < b.bitlen then Ordering.lt
      else if b.bitlen < a.bitlen then Ordering.gt
      else if a.bits < b.bits then Ordering.lt
      else if b.bits < a.bits then Ordering.gt
      else if a.addr < b.addr then Ordering.lt
      else if b.addr < a.addr then Ordering.gt
      else Ordering.eq := by
  unfold prefixCompare
  rcases Nat.lt_trichotomy a.bitlen b.bitlen with h1 | h1 | h1
  · rw [Nat.compare_eq_lt.mpr h1]
    simp [h1]
  · rw [Nat.compare_eq_eq.mpr h1]
    have h1x : ¬ a.bitlen < b.bitlen := by omega
    have h1y : ¬ b.bitlen < a.bitlen := by omega
    simp only [h1x, h1y, if_false]
    rcases Nat.lt_trichotomy a.bits b.bits with h2 | h2 | h2
    · rw [Nat.compare_eq_lt.mpr h2]
      simp [h2]
    · rw [Nat.compare_eq_eq.mpr h2]
      have h2x : ¬ a.bits < b.bits := by omega
      have h2y : ¬ b.bits < a.bits := by omega
      simp only [h2x, h2y, if_false]
      rcases Nat.lt_trichotomy a.addr b.addr with h3 | h3 | h3
      · rw [Nat.compare_eq_lt.mpr h3]
        simp [h3]
      · rw [Nat.compare_eq_eq.mpr h3]
        simp [h3]
      · rw [Nat.compare_eq_gt.mpr h3]
        have h3x : ¬ a.addr < b.addr := by omega
        simp [h3x, h3]
    · rw [Nat.compare_eq_gt.mpr h2]
      have h2x : ¬ a.bits < b.bits := by omega
      simp [h2x, h2]
  · rw [Nat.compare_eq_gt.mpr h1]
    have h1x : ¬ a.bitlen < b.bitlen := by omega
    simp [h1x, h1]

theorem prefixCompare_eq_iff (a b : Pfx) : prefixCompare a b = Ordering.eq ↔ a = b := by
  rcases a with ⟨al, aa, ab⟩
  rcases b with ⟨bl, ba, bb⟩
  rw [prefixCompare_def]
  simp only [Pfx.mk.injEq]
  split_ifs <;> simp_all <;> omega

theorem prefixCompare_swap (a b : Pfx) : prefixCompare a b = (prefixCompare b a).swap := by
  rw [prefixCompare_def, prefixCompare_def]
  split_ifs <;> simp_all [Ordering.swap] <;> omega

theorem prefixLE_iff (a b : Pfx) :
    prefixLE a b ↔
      a.bitlen < b.bitlen ∨
        (a.bitlen = b.bitlen ∧
          (a.bits < b.bits ∨ (a.bits = b.bits ∧ a.addr ≤ b.addr))) := by
  unfold prefixLE
  rw [prefixCompare_def]
  split_ifs <;> simp_all <;> omega

theorem prefixLE_trans {a b c : Pfx} (hab : prefixLE a b) (hbc : prefixLE b c) :
    prefixLE a c := by
  rw [prefixLE_iff] at *
  omega

theorem prefixLE_total (a b : Pfx) : prefixLE a b ∨ prefixLE b a := by
  rw [prefixLE_iff, prefixLE_iff]
  omega

instance : IsTrans Pfx prefixLE := ⟨fun _ _ _ => prefixLE_trans⟩

instance : IsTotal Pfx prefixLE := ⟨prefixLE_total⟩

/-- Claim C1: isValidPublicASN accepts exactly the union of the 16-bit public
range [1, 64511] and the 32-bit public range [131072, 4199999999]; in
particular it rejects 0, 64512-65534, 65535, 65536-131071, 4200000000-4294967294
and 4294967295. -/
theorem isValidPublicASN_iff (a : Int) :
    isValidPublicASN a = true ↔ (1 ≤ a ∧ a ≤ 64511) ∨ (131072 ≤ a ∧ a ≤ 4199999999) := by
  unfold isValidPublicASN
  split_ifs <;> simp_all <;> omega

/-- Claim C4: prefixCompare is a total order — transitive and antisymmetric
(result eq forces equality), with the documented priority: smaller address
bit length (IPv4 = 32 before IPv6 = 128) first, then shorter prefix length,
then smaller numeric address. -/
theorem prefixCompare_totalOrder :
    (∀ a b c : Pfx, prefixCompare a b ≠ Ordering.gt → prefixCompare b c ≠ Ordering.gt →
      prefixCompare a c ≠ Ordering.gt)
    ∧ (∀ a b : Pfx, prefixCompare a b = Ordering.eq → a = b)
    ∧ (∀ a b : Pfx, prefixCompare a b = (prefixCompare b a).swap)
    ∧ (∀ a b : Pfx, a.bitlen < b.bitlen → prefixCompare a b = Ordering.lt)
    ∧ (∀ a b : Pfx, a.bitlen = b.bitlen → a.bits < b.bits → prefixCompare a b = Ordering.lt)
    ∧ (∀ a b : Pfx, a.bitlen = b.bitlen → a.bits = b.bits → a.addr < b.addr →
        prefixCompare a b = Ordering.lt) := by
  refine ⟨fun a b c => prefixLE_trans, fun a b => (prefixCompare_eq_iff a b).mp,
    prefixCompare_swap, ?_, ?_, ?_⟩
  · intro a b h
    rw [prefixCompare_def]
    simp [h]
  · intro a b h1 h2
    rw [prefixCompare_def]
    rw [h1]
    simp [h2, Nat.lt_irrefl]
  · intro a b h1 h2 h3
    rw [prefixCompare_def]
    rw [h1, h2]
    simp [h3, Nat.lt_irrefl]

/-- Witness for C4: the theorem applied to concrete prefixes — an IPv4 /24
sorts before an IPv6 /24 under prefixCompare. -/
theorem prefixCompare_totalOrder_witness :
    prefixCompare ⟨32, 167772160, 24⟩ ⟨128, 0, 24⟩ = Ordering.lt :=
  prefixCompare_totalOrder.2.2.2.1 ⟨32, 167772160, 24⟩ ⟨128, 0, 24⟩ (by decide)

/- Embedding of the /24 arithmetic from api.go. ipToInt reads the 4 address
bytes as a big-endian Nat; intToIP writes a Nat back into 4 bytes
(big.Int.FillBytes; in Go a value not fitting 4 bytes panics, here reduced
mod 2^32 — every theorem below only evaluates it on in-range values). -/

def intToIP (v : Nat) : Nat := v % 2 ^ 32

/-- Embeds splitToBlocks from api.go. For bits >= 24 the last address octet
is zeroed (bytes[3] = 0) and the length set to 24; otherwise the prefix is
split into 2^(24-bits) /24 blocks starting at its address and stepping by
256. Outputs are IPv4 (Go builds them from 4-byte slices). -/
def splitToBlocks (p : Pfx) : List Pfx :=
  if 24 ≤ p.bits then
    [⟨32, p.addr - p.addr % 256, 24⟩]
  else
    (List.range (2 ^ (24 - p.bits))).map (fun i => ⟨32, intToIP (p.addr + 256 * i), 24⟩)

/-- Embeds convertToIPv4Blocks from api.go: drop non-IPv4 prefixes, split
each survivor into /24 blocks, deduplicate (Go: a map used as a set), and
sort with prefixCompare (slices.SortFunc, modelled by insertion sort — the
sorted result of the deduplicated set is order-independent). -/
def convertToIPv4Blocks (prefixes : List Pfx) : List Pfx :=
  if prefixes.isEmpty then []
  else
    List.insertionSort prefixLE
      (((prefixes.filter (fun p => p.is4)).flatMap splitToBlocks).dedup)

/-- Claim C6: for an IPv4 prefix with length >= 24, splitToBlocks returns a
single /24 whose address keeps the first 24 bits of p and has last octet 0. -/
theorem splitToBlocks_align (p : Pfx) (h4 : p.bitlen = 32) (ha : p.addr < 2 ^ 32)
    (hb : 24 ≤ p.bits) :
    splitToBlocks p = [⟨32, p.addr - p.addr % 256, 24⟩]
    ∧ (p.addr - p.addr % 256) % 256 = 0
    ∧ (p.addr - p.addr % 256) / 256 = p.addr / 256 := by
  refine ⟨by rw [splitToBlocks, if_pos hb], ?_, ?_⟩
  · have := Nat.div_add_mod p.addr 256
    have h2 : p.addr - p.addr % 256 = 256 * (p.addr / 256) := by omega
    rw [h2]
    exact Nat.mul_mod_right 256 _
  · have := Nat.div_add_mod p.addr 256
    have h2 : p.addr - p.addr % 256 = 256 * (p.addr / 256) := by omega
    rw [h2]
    exact Nat.mul_div_cancel_left _ (by norm_num)

/-- Witness for C6: aligning 1.2.3.4/28 (address 16909060) yields exactly
[1.2.3.0/24] (address 16909056). -/
theorem splitToBlocks_align_witness :
    splitToBlocks ⟨32, 16909060, 28⟩ = [⟨32, 16909060 - 16909060 % 256, 24⟩]
    ∧ (16909060 - 16909060 % 256) % 256 = 0
    ∧ (16909060 - 16909060 % 256) / 256 = 16909060 / 256 :=
  splitToBlocks_align ⟨32, 16909060, 28⟩ rfl (by norm_num) (by norm_num)

/-- Claim C2: for an IPv4 network block with length L < 24, splitToBlocks
yields exactly 2^(24-L) distinct /24 networks, in increasing order starting
at the block's base address and stepping by 256 addresses, consecutive and
non-overlapping, covering the block's address range exactly. -/
theorem splitToBlocks_split (p : Pfx) (h4 : p.bitlen = 32) (hb : p.bits < 24)
    (ha : p.addr < 2 ^ 32) (hm : p.addr % 2 ^ (32 - p.bits) = 0) :
    splitToBlocks p =
      (List.range (2 ^ (24 - p.bits))).map (fun i => ⟨32, p.addr + 256 * i, 24⟩)
    ∧ (splitToBlocks p).length = 2 ^ (24 - p.bits)
    ∧ (splitToBlocks p).Nodup
    ∧ (splitToBlocks p).Pairwise (fun a b => a.addr + 256 ≤ b.addr)
    ∧ (splitToBlocks p).all (fun b => b.bits == 24 && b.addr % 256 == 0) = true
    ∧ (∀ x : Nat, (∃ b ∈ splitToBlocks p, b.addr ≤ x ∧ x < b.addr + 256) ↔
        p.addr ≤ x ∧ x < p.addr + 2 ^ (32 - p.bits)) := by
  have hBN : 2 ^ (32 - p.bits) = 256 * 2 ^ (24 - p.bits) := by
    have h8 : 32 - p.bits = 8 + (24 - p.bits) := by omega
    rw [h8, pow_add]
    norm_num
  have hdvd : 2 ^ (32 - p.bits) ∣ p.addr := Nat.dvd_of_mod_eq_zero hm
  obtain ⟨k, hk⟩ := hdvd
  have h32 : 2 ^ 32 = 2 ^ (32 - p.bits) * 2 ^ p.bits := by
    rw [← pow_add]
    congr 1
    omega
  have hklt : k < 2 ^ p.bits := by
    by_contra hcon
    push_neg at hcon
    have : 2 ^ (32 - p.bits) * 2 ^ p.bits ≤ 2 ^ (32 - p.bits) * k :=
      Nat.mul_le_mul_left _ hcon
    omega
  have haddr : p.addr + 2 ^ (32 - p.bits) ≤ 2 ^ 32 := by
    have h1 : 2 ^ (32 - p.bits) * (k + 1) ≤ 2 ^ (32 - p.bits) * 2 ^ p.bits :=
      Nat.mul_le_mul_left _ (by omega)
    have h2 : 2 ^ (32 - p.bits) * (k + 1) = 2 ^ (32 - p.bits) * k + 2 ^ (32 - p.bits) := by
      ring
    rw [hk]
    omega
  have h256 : p.addr % 256 = 0 := by
    rw [hk, hBN, Nat.mul_assoc]
    exact Nat.mul_mod_right _ _
  have hinrange : ∀ i, i < 2 ^ (24 - p.bits) → p.addr + 256 * i < 2 ^ 32 := by
    intro i hi
    have : 256 * (i + 1) ≤ 256 * 2 ^ (24 - p.bits) := Nat.mul_le_mul_left _ (by omega)
    omega
  have hmain : splitToBlocks p =
      (List.range (2 ^ (24 - p.bits))).map (fun i => ⟨32, p.addr + 256 * i, 24⟩) := by
    rw [splitToBlocks, if_neg (by omega)]
    apply List.map_congr_left
    intro i hi
    rw [List.mem_range] at hi
    have hlt := hinrange i hi
    simp only [intToIP]
    rw [Nat.mod_eq_of_lt hlt]
  refine ⟨hmain, ?_, ?_, ?_, ?_, ?_⟩
  · rw [hmain]
    simp
  · rw [hmain]
    exact List.Nodup.map_on
      (fun x hx y hy hxy => by
        simp only [Pfx.mk.injEq, true_and, and_true] at hxy
        omega)
      (List.nodup_range _)
  · rw [hmain]
    rw [List.pairwise_map]
    exact (List.pairwise_lt_range _).imp (fun h => by simpa using by omega)
  · rw [hmain]
    simp only [List.all_eq_true, List.mem_map, List.mem_range]
    rintro b ⟨i, hi, rfl⟩
    simp [Nat.add_mul_mod_self_left, h256]
  · intro x
    constructor
    · rintro ⟨b, hbmem, hle, hlt⟩
      rw [hmain] at hbmem
      obtain ⟨i, hi, rfl⟩ := List.mem_map.mp hbmem
      rw [List.mem_range] at hi
      simp only at hle hlt
      have : 256 * (i + 1) ≤ 256 * 2 ^ (24 - p.bits) := Nat.mul_le_mul_left _ (by omega)
      omega
    · rintro ⟨h1, h2⟩
      have hq := Nat.div_add_mod (x - p.addr) 256
      have hr : (x - p.addr) % 256 < 256 := Nat.mod_lt _ (by norm_num)
      refine ⟨⟨32, p.addr + 256 * ((x - p.addr) / 256), 24⟩, ?_, ?_, ?_⟩
      · rw [hmain]
        refine List.mem_map.mpr ⟨(x - p.addr) / 256, List.mem_range.mpr ?_, rfl⟩
        by_contra hcon
        push_neg at hcon
        have : 256 * 2 ^ (24 - p.bits) ≤ 256 * ((x - p.addr) / 256) :=
          Nat.mul_le_mul_left _ hcon
        omega
      · simp only
        omega
      · simp only
        omega

/-- Witness for C2: splitting 10.0.0.0/23 (address 167772160) yields
2^(24-23) = 2 blocks, pairwise 256 apart. -/
theorem splitToBlocks_split_witness :
    (splitToBlocks ⟨32, 167772160, 23⟩).length = 2 ^ (24 - (23 : Nat))
    ∧ (splitToBlocks ⟨32, 167772160, 23⟩).Nodup :=
  ⟨(splitToBlocks_split ⟨32, 167772160, 23⟩ rfl (by norm_num) (by norm_num)
      (by norm_num)).2.1,
    (splitToBlocks_split ⟨32, 167772160, 23⟩ rfl (by norm_num) (by norm_num)
      (by norm_num)).2.2.1⟩

/-- Every block produced by splitToBlocks is an IPv4 /24. -/
theorem splitToBlocks_shape (p : Pfx) : ∀ b ∈ splitToBlocks p, b.bitlen = 32 ∧ b.bits = 24 := by
  intro b hb2
  unfold splitToBlocks at hb2
  split at hb2
  · simp only [List.mem_singleton] at hb2
    subst hb2
    exact ⟨rfl, rfl⟩
  · obtain ⟨i, hi, rfl⟩ := List.mem_map.mp hb2
    exact ⟨rfl, rfl⟩

theorem convertToIPv4Blocks_nodup (l : List Pfx) : (convertToIPv4Blocks l).Nodup := by
  unfold convertToIPv4Blocks
  split
  · simp
  · exact (List.perm_insertionSort prefixLE _).nodup_iff.mpr (List.nodup_dedup _)

theorem convertToIPv4Blocks_sorted (l : List Pfx) :
    (convertToIPv4Blocks l).Pairwise prefixLE := by
  unfold convertToIPv4Blocks
  split
  · simp
  · exact List.sorted_insertionSort prefixLE _

theorem convertToIPv4Blocks_mem {l : List Pfx} {b : Pfx} (hb2 : b ∈ convertToIPv4Blocks l) :
    ∃ q ∈ l, q.is4 = true ∧ b ∈ splitToBlocks q := by
  unfold convertToIPv4Blocks at hb2
  split at hb2
  · simp at hb2
  · rw [List.mem_insertionSort, List.mem_dedup] at hb2
    obtain ⟨q, hq, hbq⟩ := List.mem_flatMap.mp hb2
    rw [List.mem_filter] at hq
    exact ⟨q, hq.1, hq.2, hbq⟩

/-- Claim C3: for any input list (repeated or overlapping source prefixes
included), the normalizer output has no duplicate networks, every element is
a /24, and the list is sorted by the canonical comparator. -/
theorem convertToIPv4Blocks_invariants (l : List Pfx) :
    (convertToIPv4Blocks l).Nodup
    ∧ (convertToIPv4Blocks l).all (fun p => p.bits == 24) = true
    ∧ (convertToIPv4Blocks l).Pairwise prefixLE := by
  refine ⟨convertToIPv4Blocks_nodup l, ?_, convertToIPv4Blocks_sorted l⟩
  simp only [List.all_eq_true, beq_iff_eq]
  intro b hb2
  obtain ⟨q, hq, hq4, hbq⟩ := convertToIPv4Blocks_mem hb2
  exact (splitToBlocks_shape q b hbq).2

theorem mod256_of_masked {a b : Nat} (hb : b < 24) (hm : a % 2 ^ (32 - b) = 0) :
    a % 256 = 0 := by
  have hdvd : (256 : Nat) ∣ 2 ^ (32 - b) := by
    have h8 : (256 : Nat) = 2 ^ 8 := by norm_num
    rw [h8]
    exact pow_dvd_pow 2 (by omega)
  obtain ⟨c, hc⟩ := dvd_trans hdvd (Nat.dvd_of_mod_eq_zero hm)
  rw [hc]
  exact Nat.mul_mod_right _ _

/-- Every block produced by splitToBlocks from a well-formed IPv4 prefix has
last octet zero. -/
theorem splitToBlocks_mod256 (q : Pfx) (hwf : q.Wf4) (h32 : q.bitlen = 32) :
    ∀ b ∈ splitToBlocks q, b.addr % 256 = 0 := by
  intro b hb2
  unfold splitToBlocks at hb2
  split at hb2
  · simp only [List.mem_singleton] at hb2
    subst hb2
    have := Nat.div_add_mod q.addr 256
    have h2 : q.addr - q.addr % 256 = 256 * (q.addr / 256) := by omega
    simp only [h2]
    exact Nat.mul_mod_right _ _
  · obtain ⟨i, hi, rfl⟩ := List.mem_map.mp hb2
    obtain ⟨hb24, ha32, hm⟩ := hwf h32
    simp only [intToIP]
    have hd : (256 : Nat) ∣ 2 ^ 32 := by
      have h8 : (256 : Nat) = 2 ^ 8 := by norm_num
      rw [h8]
      exact pow_dvd_pow 2 (by omega)
    rw [Nat.mod_mod_of_dvd _ hd, Nat.add_mul_mod_self_left]
    exact mod256_of_masked (by omega) hm

/-- A canonical /24 is its own splitToBlocks image. -/
theorem splitToBlocks_fixed (b : Pfx) (h32 : b.bitlen = 32) (h24 : b.bits = 24)
    (hz : b.addr % 256 = 0) : splitToBlocks b = [b] := by
  rw [splitToBlocks, if_pos (by omega)]
  rcases b with ⟨bl, ba, bb⟩
  simp only at h32 h24 hz
  subst h32 h24
  simp [hz]

theorem flatMap_splitToBlocks_id {l : List Pfx} (h : ∀ b ∈ l, splitToBlocks b = [b]) :
    l.flatMap splitToBlocks = l := by
  induction l with
  | nil => rfl
  | cons x xs ih =>
    rw [List.flatMap_cons, h x (by simp), ih (fun b hb2 => h b (by simp [hb2]))]
    rfl

/-- A list of canonical /24 networks that is already deduplicated and sorted
is a fixed point of the normalizer. -/
theorem convertToIPv4Blocks_fixed (m : List Pfx)
    (hshape : ∀ b ∈ m, b.bitlen = 32 ∧ b.bits = 24 ∧ b.addr % 256 = 0)
    (hnd : m.Nodup) (hsort : m.Pairwise prefixLE) : convertToIPv4Blocks m = m := by
  rcases m with _ | ⟨x, xs⟩
  · rfl
  · unfold convertToIPv4Blocks
    rw [if_neg (by simp)]
    rw [List.filter_eq_self.mpr (fun b hb2 => by simp [Pfx.is4, (hshape b hb2).1])]
    rw [flatMap_splitToBlocks_id (fun b hb2 =>
      splitToBlocks_fixed b (hshape b hb2).1 (hshape b hb2).2.1 (hshape b hb2).2.2)]
    rw [List.dedup_eq_self.mpr hnd]
    exact List.Sorted.insertionSort_eq hsort

/-- Claim C9: the IPv4 normalizer is idempotent — on any input list of
well-formed prefixes, applying convertToIPv4Blocks to its own output
yields the identical list. -/
theorem convertToIPv4Blocks_idempotent (l : List Pfx) (h : ∀ p ∈ l, p.Wf4) :
    convertToIPv4Blocks (convertToIPv4Blocks l) = convertToIPv4Blocks l := by
  have hshape : ∀ b ∈ convertToIPv4Blocks l,
      b.bitlen = 32 ∧ b.bits = 24 ∧ b.addr % 256 = 0 := by
    intro b hb2
    obtain ⟨q, hq, hq4, hbq⟩ := convertToIPv4Blocks_mem hb2
    refine ⟨(splitToBlocks_shape q b hbq).1, (splitToBlocks_shape q b hbq).2, ?_⟩
    exact splitToBlocks_mod256 q (h q hq) (by simpa [Pfx.is4] using hq4) b hbq
  exact convertToIPv4Blocks_fixed (convertToIPv4Blocks l) hshape
    (convertToIPv4Blocks_nodup l) (convertToIPv4Blocks_sorted l)

/-- Witness for C9: normalizing the output of normalizing [10.0.0.0/23]
yields that output unchanged. -/
theorem convertToIPv4Blocks_idempotent_witness :
    convertToIPv4Blocks (convertToIPv4Blocks [⟨32, 167772160, 23⟩]) =
      convertToIPv4Blocks [⟨32, 167772160, 23⟩] :=
  convertToIPv4Blocks_idempotent [⟨32, 167772160, 23⟩] (by decide)

/- Embedding of the BGP fetch retry logic. A fetch attempt is an oracle
from the 1-based attempt index to a result; sleeps are recorded as the
multipliers of retryDelay passed to time.Sleep. -/

/-- Error produced when all retry attempts fail: models the Go error value
fmt.Errorf with format "all %d attempts failed: %w" wrapping the last error. -/
inductive RetryError (E : Type) where
  | exhausted (attempts : Nat) (last : E)
deriving DecidableEq

/-- The retry loop of fetchWithRetrySimple, structurally: fuel counts the
retries still allowed after the current attempt (Go: maxRetries - attempt),
so the Go condition attempt < maxRetries is fuel > 0. Returns the final
result, the index of the last attempt made, and the sleep multipliers. -/
def retryLoop (f : Nat → Except E A) : Nat → Nat → Except E A × Nat × List Nat
  | attempt, 0 =>
    match f attempt with
    | .ok a => (.ok a, attempt, [])
    | .error e => (.error e, attempt, [])
  | attempt, fuel + 1 =>
    match f attempt with
    | .ok a => (.ok a, attempt, [])
    | .error _ =>
      let r := retryLoop f (attempt + 1) fuel
      (r.1, r.2.1, attempt :: r.2.2)

/-- Embeds fetchWithRetrySimple: up to maxRetries = 4 sequential attempts
starting at attempt 1; the delay slept before retry k+1 is k base units
(linear backoff); exhaustion wraps the last attempt's error. -/
def fetchWithRetrySimple (f : Nat → Except E A) : Except (RetryError E) A × Nat × List Nat :=
  match retryLoop f 1 3 with
  | (.ok a, n, s) => (.ok a, n, s)
  | (.error e, n, s) => (.error (.exhausted 4 e), n, s)

theorem retryLoop_ok_eq {f : Nat → Except E A} {attempt : Nat} {a : A} (fuel : Nat)
    (h : f attempt = .ok a) : retryLoop f attempt fuel = (.ok a, attempt, []) := by
  cases fuel <;> simp [retryLoop, h]

theorem retryLoop_err_zero {f : Nat → Except E A} {attempt : Nat} {e : E}
    (h : f attempt = .error e) : retryLoop f attempt 0 = (.error e, attempt, []) := by
  simp [retryLoop, h]

theorem retryLoop_err_succ {f : Nat → Except E A} {attempt fuel : Nat} {e : E}
    (h : f attempt = .error e) :
    retryLoop f attempt (fuel + 1) =
      ((retryLoop f (attempt + 1) fuel).1, (retryLoop f (attempt + 1) fuel).2.1,
        attempt :: (retryLoop f (attempt + 1) fuel).2.2) := by
  simp [retryLoop, h]

theorem retryLoop_le (f : Nat → Except E A) (attempt fuel : Nat) :
    (retryLoop f attempt fuel).2.1 ≤ attempt + fuel := by
  induction fuel generalizing attempt with
  | zero =>
    rcases hfa : f attempt with e | a
    · rw [retryLoop_err_zero hfa]
      simp
    · rw [retryLoop_ok_eq 0 hfa]
      simp
  | succ fuel ih =>
    rcases hfa : f attempt with e | a
    · rw [retryLoop_err_succ hfa]
      have := ih (attempt + 1)
      simp only
      omega
    · rw [retryLoop_ok_eq _ hfa]
      simp

theorem retryLoop_first_ok (f : Nat → Except E A) (fuel : Nat) :
    ∀ attempt k a, attempt ≤ k → k ≤ attempt + fuel → f k = .ok a →
      (∀ j, attempt ≤ j → j < k → ∃ e, f j = .error e) →
      retryLoop f attempt fuel = (.ok a, k, List.range' attempt (k - attempt)) := by
  induction fuel with
  | zero =>
    intro attempt k a h1 h2 h3 h4
    have hak : attempt = k := by omega
    subst hak
    rw [retryLoop_ok_eq 0 h3]
    simp
  | succ fuel ih =>
    intro attempt k a h1 h2 h3 h4
    rcases Nat.eq_or_lt_of_le h1 with heq | hlt
    · subst heq
      rw [retryLoop_ok_eq _ h3]
      simp
    · obtain ⟨e, he⟩ := h4 attempt (Nat.le_refl _) hlt
      rw [retryLoop_err_succ he]
      have hrec := ih (attempt + 1) k a hlt (by omega) h3
        (fun j hj1 hj2 => h4 j (by omega) hj2)
      rw [hrec]
      have hr : k - attempt = (k - (attempt + 1)) + 1 := by omega
      rw [hr, List.range']

theorem retryLoop_all_err (f : Nat → Except E A) (fuel : Nat) :
    ∀ attempt e, f (attempt + fuel) = .error e →
      (∀ j, attempt ≤ j → j ≤ attempt + fuel → ∃ ej, f j = .error ej) →
      retryLoop f attempt fuel = (.error e, attempt + fuel, List.range' attempt fuel) := by
  induction fuel with
  | zero =>
    intro attempt e h1 h2
    simp only [Nat.add_zero] at h1 ⊢
    rw [retryLoop_err_zero h1]
    simp
  | succ fuel ih =>
    intro attempt e h1 h2
    obtain ⟨ea, hea⟩ := h2 attempt (Nat.le_refl _) (by omega)
    rw [retryLoop_err_succ hea]
    have hrec := ih (attempt + 1) e (by rw [← h1]; congr 1; omega)
      (fun j hj1 hj2 => h2 j (by omega) (by omega))
    rw [hrec, List.range']
    have hadd : attempt + 1 + fuel = attempt + (fuel + 1) := by omega
    rw [hadd]

/-- Claim C5: the BGP fetch makes at most 4 attempts with linear backoff
(the sleep before retrying after attempt k is k base units); if attempt
k <= 4 is the first success the result is that attempt's data with no
error after sleeps 1,...,k-1; if all 4 attempts fail the result wraps the
4th attempt's error after sleeps 1, 2, 3. -/
theorem fetchWithRetrySimple_spec (f : Nat → Except E A) :
    (fetchWithRetrySimple f).2.1 ≤ 4
    ∧ (∀ k a, 1 ≤ k → k ≤ 4 → f k = .ok a →
        (∀ j, 1 ≤ j → j < k → ∃ e, f j = .error e) →
        fetchWithRetrySimple f = (.ok a, k, List.range' 1 (k - 1)))
    ∧ (∀ e, f 4 = .error e → (∀ j, 1 ≤ j → j ≤ 4 → ∃ ej, f j = .error ej) →
        fetchWithRetrySimple f = (.error (.exhausted 4 e), 4, [1, 2, 3])) := by
  refine ⟨?_, ?_, ?_⟩
  · unfold fetchWithRetrySimple
    have h := retryLoop_le f 1 3
    rcases hr : retryLoop f 1 3 with ⟨r, n, s⟩
    rw [hr] at h
    rcases r with e | a <;> simpa using h
  · intro k a h1 h2 h3 h4
    unfold fetchWithRetrySimple
    rw [retryLoop_first_ok f 3 1 k a h1 (by omega) h3 h4]
  · intro e h1 h2
    unfold fetchWithRetrySimple
    rw [retryLoop_all_err f 3 1 e h1 (fun j hj1 hj2 => h2 j hj1 (by omega))]
    rfl

/-- Concrete attempt oracle for the C5 witness: attempts 1 and 2 fail,
attempt 3 returns 42. -/
def retryOracle3 : Nat → Except Nat Nat := fun i =>
  if i = 1 then .error 11 else if i = 2 then .error 22 else .ok 42

/-- Witness for C5: with failures at attempts 1 and 2 and success at
attempt 3, the fetch returns 42 after 3 attempts and sleeps of 1 and 2
base units. -/
theorem fetchWithRetrySimple_spec_witness :
    fetchWithRetrySimple retryOracle3 = (.ok 42, 3, List.range' 1 2) :=
  (fetchWithRetrySimple_spec retryOracle3).2.1 3 42 (by decide) (by decide) rfl
    (by
      intro j hj1 hj2
      interval_cases j
      · exact ⟨11, rfl⟩
      · exact ⟨22, rfl⟩)

/-- Model of the Go struct named Prefix in the BGP fetch file (spec name
RoutedPrefix): a BGP route entry, CIDR plus announcing ASN. -/
structure RoutedPfx where
  CIDR : Pfx
  ASN : Int
deriving DecidableEq

/-- Container for country-specific prefix results (api.go). -/
structure PrefixSet where
  IPv4 : List Pfx
  IPv6 : List Pfx
deriving DecidableEq

/-- Embeds filterByASN: keep entries whose ASN is in the membership set,
route into the IPv4/IPv6 bucket by address family (the two conditions are
mutually exclusive, so the single Go loop equals two filters), and sort
both buckets with prefixCompare. -/
def filterByASN (prefixes : List RoutedPfx) (asns : List Int) : List Pfx × List Pfx :=
  let keep := prefixes.filter (fun p => asns.contains p.ASN)
  let v4 := (keep.filter (fun p => p.CIDR.bitlen == 32)).map (fun p => p.CIDR)
  let v6 := (keep.filter (fun p => p.CIDR.bitlen == 128)).map (fun p => p.CIDR)
  (List.insertionSort prefixLE v4, List.insertionSort prefixLE v6)

/-- Embeds GetPrefixesForASNs from api.go: empty ASN list short-circuits to
an empty PrefixSet before any fetch; otherwise the BGP table is fetched
with retry (the Nat component counts attempts actually made; the Go wrapper
message "failed to fetch BGP data" adds no data and is not modelled). -/
def GetPrefixesForASNs (asns : List Int) (f : Nat → Except E (List RoutedPfx)) :
    Except (RetryError E) PrefixSet × Nat :=
  if asns.isEmpty then (.ok ⟨[], []⟩, 0)
  else
    match fetchWithRetrySimple f with
    | (.ok bgp, n, _) =>
      let fp := filterByASN bgp asns
      (.ok ⟨convertToIPv4Blocks fp.1, fp.2⟩, n)
    | (.error e, n, _) => (.error e, n)

/-- Claim C10: for the empty ASN list, GetPrefixesForASNs returns a
PrefixSet with empty IPv4 and IPv6 sequences and no error, making zero
fetch attempts — the result does not depend on the fetch oracle at all. -/
theorem GetPrefixesForASNs_empty (f : Nat → Except E (List RoutedPfx)) :
    GetPrefixesForASNs [] f = (.ok ⟨[], []⟩, 0) := rfl

/- Embedding of the RIR delegated-file parser (asn_delegated.go). Go strings
are modelled as List Char: trimChars models strings.TrimSpace, splitOnChar
models strings.Split with a one-character separator, containsSeq models
strings.Contains, and List.isPrefixOf models strings.HasPrefix. -/

def trimChars (s : List Char) : List Char :=
  ((s.dropWhile Char.isWhitespace).reverse.dropWhile Char.isWhitespace).reverse

def splitOnChar (sep : Char) : List Char → List (List Char)
  | [] => [[]]
  | c :: rest =>
    if c = sep then [] :: splitOnChar sep rest
    else
      match splitOnChar sep rest with
      | [] => [[c]]
      | g :: gs => (c :: g) :: gs

def containsSeq (pat : List Char) : List Char → Bool
  | [] => pat.isPrefixOf []
  | c :: rest => pat.isPrefixOf (c :: rest) || containsSeq pat rest

/-- One record of an RIR delegated file (asn_delegated.go DelegatedRecord;
the Go field Type is named Typ here because Type is a Lean keyword). -/
structure DelegatedRecord where
  Registry : List Char
  CC : List Char
  Typ : List Char
  Start : List Char
  Value : List Char
  Date : List Char
  Status : List Char
deriving DecidableEq

/-- Embeds parseDelegatedRecord: split on the pipe character, require at
least 7 fields (error value models fmt.Errorf "invalid record format"),
take fields 0-6. -/
def parseDelegatedRecord (line : List Char) : Except (List Char) DelegatedRecord :=
  match splitOnChar '|' line with
  | r :: cc :: ty :: st :: v :: d :: stat :: _ => .ok ⟨r, cc, ty, st, v, d, stat⟩
  | _ => .error line

/-- Embeds parseDelegatedFile: the input is the line sequence produced by
bufio.Scanner; each line is trimmed, blank and '#' comment lines are
skipped, version/summary marker lines are skipped, malformed lines (fewer
than 7 pipe-separated fields) are dropped silently, and each well-formed
line contributes one record in order. -/
def parseDelegatedFile (lines : List (List Char)) : List DelegatedRecord :=
  match lines with
  | [] => []
  | l :: rest =>
    let line := trimChars l
    if line = [] ∨ ['#'].isPrefixOf line then parseDelegatedFile rest
    else if containsSeq "|version|".data line ∨ containsSeq "|summary|".data line then
      parseDelegatedFile rest
    else
      match parseDelegatedRecord line with
      | .ok record => record :: parseDelegatedFile rest
      | .error _ => parseDelegatedFile rest

/-- Modelled from the spec wording of the parser contract (§4.2): the
per-line classification — skip blank, comment, version and summary lines,
drop lines with fewer than 7 fields, otherwise yield the record of the
first seven fields. -/
def classifyLineSpec (raw : List Char) : Option DelegatedRecord :=
  let line := trimChars raw
  if line = [] then none
  else if ['#'].isPrefixOf line then none
  else if containsSeq "|version|".data line then none
  else if containsSeq "|summary|".data line then none
  else
    let parts := splitOnChar '|' line
    if parts.length < 7 then none
    else
      some ⟨parts.getD 0 [], parts.getD 1 [], parts.getD 2 [], parts.getD 3 [],
        parts.getD 4 [], parts.getD 5 [], parts.getD 6 []⟩

theorem parseDelegatedRecord_eq (line : List Char) :
    parseDelegatedRecord line =
      if (splitOnChar '|' line).length < 7 then .error line
      else
        .ok ⟨(splitOnChar '|' line).getD 0 [], (splitOnChar '|' line).getD 1 [],
          (splitOnChar '|' line).getD 2 [], (splitOnChar '|' line).getD 3 [],
          (splitOnChar '|' line).getD 4 [], (splitOnChar '|' line).getD 5 [],
          (splitOnChar '|' line).getD 6 []⟩ := by
  unfold parseDelegatedRecord
  rcases hp : splitOnChar '|' line with _ | ⟨a, _ | ⟨b, _ | ⟨c, _ | ⟨d, _ | ⟨e, _ | ⟨f,
    _ | ⟨g, t⟩⟩⟩⟩⟩⟩⟩
  case cons.cons.cons.cons.cons.cons.cons =>
    rw [if_neg (by simp only [List.length_cons]; omega)]
    simp [List.getD_cons_zero, List.getD_cons_succ]
  all_goals rw [if_pos (by simp only [List.length_cons, List.length_nil]; omega)]

/-- Claim C8: the delegated-file parser skips blank lines, '#' comment
lines and version/summary marker lines, silently drops lines with fewer
than 7 pipe-separated fields, and yields exactly one DelegatedRecord per
well-formed line in the original line order — that is, it equals the
per-line spec classification mapped over the lines with order-preserving
filterMap, surfacing no error. -/
theorem parseDelegatedFile_eq_filterMap (lines : List (List Char)) :
    parseDelegatedFile lines = lines.filterMap classifyLineSpec := by
  induction lines with
  | nil => rfl
  | cons l rest ih =>
    rw [parseDelegatedFile, List.filterMap_cons]
    simp only
    by_cases h1 : trimChars l = [] ∨ ['#'].isPrefixOf (trimChars l)
    · rw [if_pos h1]
      have hc : classifyLineSpec l = none := by
        unfold classifyLineSpec
        rcases h1 with h1 | h1
        · simp [h1]
        · rcases hemp : trimChars l with _ | _
          · simp
          · rw [hemp] at h1
            simp [h1]
      rw [hc, ih]
    · rw [if_neg h1]
      push_neg at h1
      obtain ⟨hne, hns⟩ := h1
      by_cases h2 : containsSeq "|version|".data (trimChars l) = true ∨
          containsSeq "|summary|".data (trimChars l) = true
      · rw [if_pos h2]
        have hc : classifyLineSpec l = none := by
          unfold classifyLineSpec
          rw [if_neg hne, if_neg (by simpa using hns)]
          by_cases hv2 : containsSeq "|version|".data (trimChars l) = true
          · rw [if_pos hv2]
          · rw [if_neg hv2]
            rcases h2 with h2 | h2
            · exact absurd h2 hv2
            · rw [if_pos h2]
        rw [hc, ih]
      · rw [if_neg h2]
        push_neg at h2
        obtain ⟨hv, hs⟩ := h2
        have hc : classifyLineSpec l =
            if (splitOnChar '|' (trimChars l)).length < 7 then none
            else
              some ⟨(splitOnChar '|' (trimChars l)).getD 0 [],
                (splitOnChar '|' (trimChars l)).getD 1 [],
                (splitOnChar '|' (trimChars l)).getD 2 [],
                (splitOnChar '|' (trimChars l)).getD 3 [],
                (splitOnChar '|' (trimChars l)).getD 4 [],
                (splitOnChar '|' (trimChars l)).getD 5 [],
                (splitOnChar '|' (trimChars l)).getD 6 []⟩ := by
          unfold classifyLineSpec
          rw [if_neg hne, if_neg (by simpa using hns), if_neg (by simpa using hv),
            if_neg (by simpa using hs)]
        rw [parseDelegatedRecord_eq, hc]
        by_cases h7 : (splitOnChar '|' (trimChars l)).length < 7
        · rw [if_pos h7, if_pos h7, ih]
        · rw [if_neg h7, if_neg h7, ih]

/-- Model of Go strconv.Atoi on a List Char string: optional sign, decimal
digits only, error on empty digits or any other character or 64-bit
overflow. -/
def atoi (s : List Char) : Option Int :=
  let sd : Int × List Char :=
    match s with
    | '-' :: rest => (-1, rest)
    | '+' :: rest => (1, rest)
    | _ => (1, s)
  if sd.2 = [] then none
  else if sd.2.all Char.isDigit then
    let n : Nat := sd.2.foldl (fun acc c => acc * 10 + (c.toNat - 48)) 0
    let v : Int := sd.1 * n
    if v < -(2 ^ 63) ∨ 2 ^ 63 - 1 < v then none else some v
  else none

/-- A Regional Internet Registry endpoint (asn_delegated.go). -/
structure RIR where
  Name : List Char
  URL : List Char
deriving DecidableEq

def RIPE_NCC : RIR :=
  ⟨"RIPE NCC".data, "https://ftp.ripe.net/ripe/stats/delegated-ripencc-latest".data⟩

def APNIC : RIR :=
  ⟨"APNIC".data, "https://ftp.apnic.net/stats/apnic/delegated-apnic-latest".data⟩

/-- The static country-to-RIR mapping (asn_delegated.go CountryToRIR),
modelled as an association list. -/
def CountryToRIR : List (List Char × RIR) :=
  [("IR".data, RIPE_NCC), ("CN".data, APNIC)]

/-- Embeds extractASNsForCountry: keep records of type asn with the exact
country code whose status is neither reserved nor available and whose Start
and Value fields parse as integers; each such record contributes, in order,
every ASN of [start, start+count) passing isValidPublicASN (a non-positive
count contributes nothing, like the Go counting loop). -/
def extractASNsForCountry (records : List DelegatedRecord) (countryCode : List Char) :
    List Int :=
  records.flatMap (fun record =>
    if record.Typ ≠ "asn".data ∨ record.CC ≠ countryCode then []
    else if record.Status = "reserved".data ∨ record.Status = "available".data then []
    else
      match atoi record.Start with
      | none => []
      | some startASN =>
        match atoi record.Value with
        | none => []
        | some count =>
          ((List.range count.toNat).map (fun i => startASN + i)).filter isValidPublicASN)

/-- Embeds FetchASNsForCountry, parametrized by the records parsed from the
registry's delegated file (the HTTP transfer is outside the model): fails
when the country has no RIR mapping, otherwise extracts the country's ASNs
and sorts them ascending (sort.Ints, modelled by insertion sort). -/
def FetchASNsForCountry (countryCode : List Char) (records : List DelegatedRecord) :
    Except (List Char) (List Int) :=
  match CountryToRIR.lookup countryCode with
  | none => .error countryCode
  | some _ =>
    .ok (List.insertionSort (fun a b => a ≤ b) (extractASNsForCountry records countryCode))

/-- A delegated record for a single Iranian ASN, used twice to exhibit
overlapping records. -/
def dupRecord : DelegatedRecord :=
  ⟨"ripencc".data, "IR".data, "asn".data, "100".data, "1".data, "20110101".data,
    "allocated".data⟩

/-- Counterexample to C7 as stated: with the same single-ASN record listed
twice (overlapping ranges), the resolver returns [100, 100] — sorted but
containing a duplicate, so the output is not a list of distinct ASNs. -/
theorem FetchASNsForCountry_dup_counterexample :
    FetchASNsForCountry "IR".data [dupRecord, dupRecord] = .ok [100, 100]
    ∧ ¬ ([100, 100] : List Int).Nodup := by
  constructor
  · rfl
  · decide

/-- Claim C7 (amended: duplicates from overlapping records survive — the
code never deduplicates ASNs): for every country code present in the
registry table, the resolver succeeds and returns the ascending sort of
exactly the multiset of contributions of the surviving records (type asn,
exact country match, status neither reserved nor available, numeric
fields), each contributing every integer of [start, start+count) that
passes the public-ASN validity filter; every returned ASN is valid. -/
theorem FetchASNsForCountry_spec (countryCode : List Char) (records : List DelegatedRecord)
    (h : (CountryToRIR.lookup countryCode).isSome = true) :
    FetchASNsForCountry countryCode records =
      .ok (List.insertionSort (fun a b => a ≤ b) (extractASNsForCountry records countryCode))
    ∧ List.Sorted (· ≤ ·)
        (List.insertionSort (fun a b => a ≤ b) (extractASNsForCountry records countryCode))
    ∧ (List.insertionSort (fun a b => a ≤ b)
        (extractASNsForCountry records countryCode)).Perm
          (extractASNsForCountry records countryCode)
    ∧ ∀ a ∈ extractASNsForCountry records countryCode, isValidPublicASN a = true := by
  refine ⟨?_, ?_, ?_, ?_⟩
  · unfold FetchASNsForCountry
    rcases hl : CountryToRIR.lookup countryCode with _ | rir
    · rw [hl] at h
      simp at h
    · rfl
  · exact List.sorted_insertionSort _ _
  · exact List.perm_insertionSort _ _
  · intro a ha
    unfold extractASNsForCountry at ha
    obtain ⟨record, hrec, hmem⟩ := List.mem_flatMap.mp ha
    split at hmem
    · simp at hmem
    · split at hmem
      · simp at hmem
      · split at hmem
        · simp at hmem
        · split at hmem
          · simp at hmem
          · exact (List.mem_filter.mp hmem).2

/-- Witness for C7: applying the theorem to country IR and one concrete
record — the lookup succeeds and every extracted ASN is valid, in
particular 100. -/
theorem FetchASNsForCountry_spec_witness :
    FetchASNsForCountry "IR".data [dupRecord] =
      .ok (List.insertionSort (fun a b => a ≤ b)
        (extractASNsForCountry [dupRecord] "IR".data)) :=
  (FetchASNsForCountry_spec "IR".data [dupRecord] rfl).1
